import Mathlib

/-!
Verification of the DAG workflow engine of `libary/flow` (dag.go, node.go)
and the executor `Flow.Run`.

Go pointers (`*Node`) are modelled as heap indices into a node heap carried
in the state `St`; Go maps (`map[string]*Node`) as association lists whose
iteration order is insertion order; Go slices as Lean lists with value
semantics.  Every operation is transcribed statement by statement from the
source.
-/

namespace GopkgFlow

/-- Operations attached to a node (`[]Operation` in the source).  `blank` is
the `BlankOperation` that `Validate` attaches to a synthesized exit node;
user-supplied operations are abstracted by a numeric tag. -/
inductive Operation where
  | blank
  | custom (tag : Nat)
deriving DecidableEq, Repr

/-- Construction and validation errors of `libary/flow/dag.go`.
`multipleStart` stands for the wrapped
`fmt.Errorf("%v, flow: %s", ErrMultipleStart, dag.Id)`. -/
inductive FlowErr where
  | noVertex
  | cyclic
  | duplicateEdge
  | duplicateVertex
  | multipleStart
  | recursiveDep
deriving DecidableEq, Repr

/-- Model of `flow.Node`.  The slice fields `children`, `dependsOn`, `next`
and `prev` hold heap pointers (`Nat`), exactly as the Go fields hold `*Node`.
The `forwarder` map records, per child id, whether the stored `Forwarder`
function is non-nil (`true` = data-carrying, `false` = the nil pure-ordering
forwarder installed by `Validate`).  Fields not needed by the claims under
study (`subDag`, `conditionalDags`, `task`, `aggregator`, `foreach`,
`condition`, `subAggregator`, `parentDag`) are omitted: the graphs in
question are flat, and `parentDag` is always the single dag of the state. -/
structure Node where
  id : String
  index : Nat
  uniqueId : String
  operations : List Operation
  dynamic : Bool
  forwarder : List (String × Bool)
  indegree : Int
  dynamicIndegree : Int
  outdegree : Int
  children : List Nat
  dependsOn : List Nat
  next : List Nat
  prev : List Nat
deriving DecidableEq, Repr

/-- The zero node used as out-of-range default for heap reads (a dereference
of a dangling pointer never happens on the executions analysed here). -/
def defNode : Node :=
  { id := "", index := 0, uniqueId := "", operations := [], dynamic := false,
    forwarder := [], indegree := 0, dynamicIndegree := 0, outdegree := 0,
    children := [], dependsOn := [], next := [], prev := [] }

instance : Inhabited Node := ⟨defNode⟩

/-- Model of `flow.Dag`.  `nodes` is the `map[string]*Node` as an association
list from id to heap pointer. -/
structure Dag where
  id : String
  nodes : List (String × Nat)
  initialNode : Option Nat
  endNode : Option Nat
  hasBranch : Bool
  hasEdge : Bool
  validated : Bool
  executionFlow : Bool
  dataForwarderCount : Int
  nodeIndex : Nat
deriving DecidableEq, Repr

/-- Program state: the node heap plus the dag under construction. -/
structure St where
  heap : List Node
  dag : Dag
deriving DecidableEq, Repr

/-- Lookup in a Go map modelled as an association list. -/
def mapLookup {α : Type} : List (String × α) → String → Option α
  | [], _ => none
  | (k, v) :: rest, k' => if k = k' then some v else mapLookup rest k'

/-- Go map assignment `m[k] = v`: replace the binding if the key is present,
otherwise append it (iteration order of the model is insertion order). -/
def mapInsert {α : Type} : List (String × α) → String → α → List (String × α)
  | [], k, v => [(k, v)]
  | (k', v') :: rest, k, v =>
      if k' = k then (k', v) :: rest else (k', v') :: mapInsert rest k v

/-- Heap read through a pointer. -/
def getN (st : St) (p : Nat) : Node := (st.heap[p]?).getD defNode

/-- Heap write through a pointer (mutation of one node in place). -/
def updN (st : St) (p : Nat) (f : Node → Node) : St :=
  { st with heap := st.heap.set p (f (getN st p)) }

/-- Model of `NewDag`: empty node map, id `"0"`, `executionFlow` true. -/
def newSt : St :=
  { heap := [],
    dag := { id := "0", nodes := [], initialNode := none, endNode := none,
             hasBranch := false, hasEdge := false, validated := false,
             executionFlow := true, dataForwarderCount := 0, nodeIndex := 0 } }

/-- Model of `Dag.AddVertex`: allocates a node with the next sequential index
and stores it under `id`, overwriting any existing binding; returns the
pointer to the new node.  The source returns `*Node` and reports no error. -/
def addVertex (st : St) (id : String) (ops : List Operation) : Nat × St :=
  let node : Node := { defNode with id := id, operations := ops, index := st.dag.nodeIndex + 1 }
  let p := st.heap.length
  let st : St := { st with heap := st.heap ++ [node] }
  let st : St :=
    { st with dag := { st.dag with nodeIndex := st.dag.nodeIndex + 1,
                                   nodes := mapInsert st.dag.nodes id p } }
  (p, st)

/-- Model of `Node.AddForwarder(child, f)`: records whether `f` is non-nil and
maintains the owning dag's data-forwarder accounting (`dataForwarderCount`,
`executionFlow`). -/
def addForwarder (st : St) (p : Nat) (child : String) (nonNil : Bool) : St :=
  let st := updN st p (fun n => { n with forwarder := mapInsert n.forwarder child nonNil })
  if nonNil then
    { st with dag := { st.dag with dataForwarderCount := st.dag.dataForwarderCount + 1,
                                   executionFlow := false } }
  else
    let st : St :=
      { st with dag := { st.dag with dataForwarderCount := st.dag.dataForwarderCount - 1 } }
    if st.dag.dataForwarderCount = 0 then
      { st with dag := { st.dag with executionFlow := true } }
    else st

/-- Model of `Node.inSlice`: membership of the node at `p` in a pointer slice,
compared by `Id`. -/
def inSlice (st : St) (p : Nat) (l : List Nat) : Bool :=
  l.any (fun q => (getN st q).id = (getN st p).id)

/-- The two consecutive statements `b.next = append(b.next, toNode)` and
`b.next = append(b.next, toNode.next...)` of `AddEdge`, applied to the node
at pointer `b` (`toNode.next` is read after the first append, which matters
for the self-loop aliasing case). -/
def pushNext (toP : Nat) (st : St) (b : Nat) : St :=
  let st := updN st b (fun n => { n with next := n.next ++ [toP] })
  updN st b (fun n => { n with next := n.next ++ (getN st toP).next })

/-- The two consecutive statements `b.prev = append(b.prev, fromNode)` and
`b.prev = append(b.prev, fromNode.prev...)` of `AddEdge`, applied to the
node at pointer `b`. -/
def pushPrev (fromP : Nat) (st : St) (b : Nat) : St :=
  let st := updN st b (fun n => { n with prev := n.prev ++ [fromP] })
  updN st b (fun n => { n with prev := n.prev ++ (getN st fromP).prev })

/-- Lines 120-134 of dag.go: `next`/`prev` transitive-cache propagation.
`fromNode.next` gains the target and its descendants (and so do all nodes in
`fromNode.prev`); `toNode.prev` gains the source and its ancestors (and so do
all nodes in `toNode.next`), each loop ranging over the slice value current
at loop entry. -/
def linkCaches (st0 : St) (fromP toP : Nat) : St :=
  let st := pushNext toP st0 fromP
  let st := (getN st fromP).prev.foldl (pushNext toP) st
  let st := pushPrev fromP st toP
  (getN st toP).next.foldl (pushPrev fromP) st

/-- Lines 136-137 of dag.go: `fromNode.children` and `toNode.dependsOn`. -/
def linkAdjacency (st0 : St) (fromP toP : Nat) : St :=
  let st := updN st0 fromP (fun n => { n with children := n.children ++ [toP] })
  updN st toP (fun n => { n with dependsOn := n.dependsOn ++ [fromP] })

/-- Lines 138-142 of dag.go: indegree, conditional dynamic indegree, and
outdegree updates. -/
def linkDegrees (st0 : St) (fromP toP : Nat) : St :=
  let st := updN st0 toP (fun n => { n with indegree := n.indegree + 1 })
  let st :=
    if (getN st fromP).dynamic then
      updN st toP (fun n => { n with dynamicIndegree := n.dynamicIndegree + 1 })
    else st
  updN st fromP (fun n => { n with outdegree := n.outdegree + 1 })

/-- Lines 147-150 of dag.go: the `hasBranch` update. -/
def linkFlags (st : St) (fromP toP : Nat) : St :=
  if (getN st toP).indegree > 1 || (getN st fromP).outdegree > 1 then
    { st with dag := { st.dag with hasBranch := true } }
  else st

/-- Success tail of `Dag.AddEdge` (dag.go lines 120-153): the `next`/`prev`
transitive-cache propagation, the adjacency and degree updates, the default
forwarder attachment and the `hasBranch`/`hasEdge` flag updates, in statement
order. -/
def addEdgeLink (st0 : St) (fromP toP : Nat) (toId : String) : St :=
  let st := linkCaches st0 fromP toP
  let st := linkAdjacency st fromP toP
  let st := linkDegrees st fromP toP
  let st := addForwarder st fromP toId true
  let st := linkFlags st fromP toP
  { st with dag := { st.dag with hasEdge := true } }

/-- Model of `Dag.AddEdge(from, to)`, transcribed statement by statement.
Missing endpoints are created first; the duplicate-edge and cycle checks run
next; on success `addEdgeLink` performs the mutations.  Note that the error
returns happen before any mutation other than the lazy vertex creation,
exactly as in the source. -/
def addEdge (st0 : St) (fromId toId : String) : Option FlowErr × St :=
  let fr :=
    match mapLookup st0.dag.nodes fromId with
    | some p => (p, st0)
    | none => addVertex st0 fromId []
  let fromP := fr.1
  let tr :=
    match mapLookup fr.2.dag.nodes toId with
    | some p => (p, fr.2)
    | none => addVertex fr.2 toId []
  let toP := tr.1
  let st := tr.2
  if inSlice st toP (getN st fromP).children || inSlice st fromP (getN st toP).dependsOn then
    (some .duplicateEdge, st)
  else if inSlice st fromP (getN st toP).next || inSlice st toP (getN st fromP).prev then
    (some .cyclic, st)
  else
    (none, addEdgeLink st fromP toP toId)

/-- Loop body of `Dag.Append`: for each binding of the appended dag, the
duplicate check looks the id up in the appended dag's own node map — the very
map being iterated (dag.go line 77) — and only then copies the binding into
the receiver. -/
def appendLoop (otherNodes : List (String × Nat)) : St → List (String × Nat) → Option FlowErr × St
  | st, [] => (none, st)
  | st, (nodeId, p) :: rest =>
    if (mapLookup otherNodes nodeId).isSome then (some .duplicateVertex, st)
    else
      appendLoop otherNodes
        { st with dag := { st.dag with nodes := mapInsert st.dag.nodes nodeId p } } rest

/-- Model of `Dag.Append(appendDag)`. -/
def appendD (st : St) (other : Dag) : Option FlowErr × St :=
  appendLoop other.nodes st other.nodes

/-- Per-node pass of `Dag.Validate` (dag.go lines 202-268): assigns each
node's `uniqueId = "<dagId>_<index>_<id>"`, counts indegree-0 nodes
(remembering the last seen as `initialNode`) and collects the outdegree-0
nodes in iteration order.  The sub-dag and conditional-dag recursion (lines
211-267) is omitted: the claims under study concern flat graphs, whose nodes
have no `subDag` or `conditionalDags`. -/
def vpass : St → List (String × Nat) → Nat → List Nat → St × Nat × List Nat
  | st, [], c, ends => (st, c, ends)
  | st, (_, p) :: rest, c, ends =>
    let n := getN st p
    let st := updN st p (fun m =>
      { m with uniqueId := st.dag.id ++ "_" ++ toString n.index ++ "_" ++ n.id })
    let cs : St × Nat :=
      if n.indegree = 0 then
        ({ st with dag := { st.dag with initialNode := some p } }, c + 1)
      else (st, c)
    let ends := if n.outdegree = 0 then ends ++ [p] else ends
    vpass cs.1 rest cs.2 ends

/-- Exit-merging loop of `Dag.Validate` (dag.go lines 279-287): for every
original exit `b`, `AddEdge(b.Id, endNodeId)`, and on success
`b.AddForwarder(endNodeId, nil)` marks the new edge as pure ordering. -/
def mergeEnds (endId : String) : St → List Nat → Option FlowErr × St
  | st, [] => (none, st)
  | st, b :: rest =>
    let r := addEdge st (getN st b).id endId
    match r.1 with
    | some e => (some e, r.2)
    | none => mergeEnds endId (addForwarder r.2 b endId false) rest

/-- Outcome of a `Validate` call: a normal return carrying the error value
(`none` = Go `nil`) and the resulting state, or a runtime panic. -/
inductive Vres where
  | ret (e : Option FlowErr) (st : St)
  | panicked (st : St)
deriving DecidableEq, Repr

/-- Model of `Dag.Validate` (dag.go lines 190-296).  An already-validated dag
returns nil immediately; an empty dag returns the no-vertex error; otherwise
the per-node pass runs, more than one indegree-0 node is the multiple-start
error, multiple exits are merged under a synthesized `"end_<dagId>"` node,
and on success `validated` is set.  When no exit node exists the source
evaluates `endNodes[0]` on a nil slice — a Go runtime panic, modelled by
`Vres.panicked`. -/
def validate (st0 : St) : Vres :=
  if st0.dag.validated then .ret none st0
  else if st0.dag.nodes = [] then .ret (some .noVertex) st0
  else
    let vp := vpass st0 st0.dag.nodes 0 []
    let st := vp.1
    let initCount := vp.2.1
    let ends := vp.2.2
    if initCount > 1 then .ret (some .multipleStart) st
    else if ends.length > 1 then
      let endId := "end_" ++ st.dag.id
      let av := addVertex st endId [.blank]
      let endP := av.1
      let me := mergeEnds endId av.2 ends
      match me.1 with
      | some e => .ret (some e) me.2
      | none =>
        let st1 : St := { me.2 with dag := { me.2.dag with endNode := some endP } }
        let st2 : St := { st1 with dag := { st1.dag with validated := true } }
        .ret none st2
    else
      match ends with
      | [] => .panicked st
      | e :: _ =>
        let st1 : St := { st with dag := { st.dag with endNode := some e } }
        let st2 : St := { st1 with dag := { st1.dag with validated := true } }
        .ret none st2

/-- Whether a `Validate` outcome is a successful (nil) return. -/
def Vres.isNilReturn : Vres → Bool
  | .ret none _ => true
  | _ => false

/-- Whether a `Validate` outcome is a runtime panic. -/
def Vres.isPanic : Vres → Bool
  | .panicked _ => true
  | _ => false

/-- One `Flow.RunNodeDone` call (`part_004`): decrements every child's
indegree and collects the children that reach zero, in order, for enqueueing
into the ready channel.  The `err` argument is ignored, exactly as in the
source, which neither stores nor inspects it. -/
def runNodeDone (st : St) (p : Nat) (err : Option Nat) : St × List Nat :=
  let _ := err
  (getN st p).children.foldl (fun (acc : St × List Nat) c =>
    let st := updN acc.1 c (fun n => { n with indegree := n.indegree - 1 })
    if (getN st c).indegree = 0 then (st, acc.2 ++ [c]) else (st, acc.2)) (st, [])

/-- Outcome of a `Flow.Run` invocation, fuel-bounded. -/
inductive RunOutcome where
  /-- The `for nodeTask := range flow.readyChan` loop is waiting on an empty
  channel with no task left to feed it.  The channel is never closed anywhere
  in the source, so the loop is blocked forever and `Run` does not return. -/
  | blocked (trace : List String) (st : St)
  /-- `Run` reached its `return flow` statement.  This requires the range loop
  to exit, which requires `readyChan` to be closed; no close exists in the
  source, so no execution produces this outcome. -/
  | returned (trace : List String) (st : St)
  | outOfFuel
deriving DecidableEq, Repr

/-- Whether the run returned to its caller. -/
def RunOutcome.isReturned : RunOutcome → Bool
  | .returned _ _ => true
  | _ => false

/-- The node ids whose task was invoked during the run. -/
def RunOutcome.trace : RunOutcome → List String
  | .blocked t _ => t
  | .returned t _ => t
  | .outOfFuel => []

/-- Dispatch loop of `Flow.Run` (`part_004`), in the sequential interleaving
where each dispatched goroutine (`RunNode`, i.e. the task followed by the
deferred `RunNodeDone`) completes before the next channel receive.  `tasks`
abstracts each node's `Task.Run` result (`some` = error, `none` = nil);
shared-data effects are irrelevant to the claims under study and omitted.
`trace` records the node ids whose task was invoked. -/
def runLoop (tasks : String → Option Nat) : Nat → St → List Nat → List String → RunOutcome
  | 0, _, _, _ => .outOfFuel
  | _ + 1, st, [], trace => .blocked trace st
  | fuel + 1, st, p :: queue, trace =>
    let n := getN st p
    let err := tasks n.id
    let sl := runNodeDone st p err
    runLoop tasks fuel sl.1 (queue ++ sl.2) (trace ++ [n.id])

/-- Model of `Flow.Run` (`part_004`): enqueues every node whose indegree is 0
(in map iteration order) and drives the ready queue.  `Run` performs no check
of `dag.validated` and returns no error value. -/
def run (tasks : String → Option Nat) (fuel : Nat) (st : St) : RunOutcome :=
  let ready := (st.dag.nodes.filter (fun kp => (getN st kp.2).indegree = 0)).map (·.2)
  runLoop tasks fuel st ready []

/-- The pointers of the nodes with outdegree 0 (the natural exits), in map
iteration order — the `endNodes` that `Validate` collects. -/
def exitPtrs (st : St) : List Nat :=
  (st.dag.nodes.filter (fun kp => (getN st kp.2).outdegree == 0)).map Prod.snd

/-- The number of indegree-0 nodes — `initialNodeCount` in `Validate`. -/
def initialCount (st : St) : Nat :=
  (st.dag.nodes.filter (fun kp => (getN st kp.2).indegree == 0)).length

/-- The state resulting from a `Validate` outcome (degenerate on a panic,
which carries the state at the point of the crash). -/
def Vres.state : Vres → St
  | .ret _ st => st
  | .panicked st => st

/-- Example: the single-node graph with the self-loop a→a, reachable through
the construction API because `AddEdge` accepts self-loops. -/
def selfLoopSt : St := (addEdge newSt "a" "a").2

/-- Example: the self-loop graph extended with an isolated vertex b. -/
def selfLoopPlusB : St := (addVertex selfLoopSt "b" []).2

/-- Example: a one-vertex graph that has never been validated. -/
def unvalidatedSt : St := (addVertex newSt "a" []).2

/-- Example: a graph holding vertex "a" with operations `[custom 7]`. -/
def dupVertexSt1 : St := (addVertex newSt "a" [.custom 7]).2

/-- Example: `dupVertexSt1` after a second `AddVertex("a", [custom 9])`. -/
def dupVertexSt2 : St := (addVertex dupVertexSt1 "a" [.custom 9]).2

/-- Example: the two-vertex graph a→b. -/
def exAB : St := (addEdge newSt "a" "b").2

/-- Example: the state after the successful validation of a→b. -/
def exABV : St := (validate exAB).state

/-- Example: the validated a→b graph extended with an isolated vertex c,
giving it two outdegree-0 nodes after validation. -/
def exABVplusC : St := (addVertex exABV "c" []).2

/-- Example: the three-vertex graph {a→b, a→c}, which has two natural exits. -/
def exABC : St := (addEdge (addEdge newSt "a" "b").2 "a" "c").2

/-- Well-formed node map: every binding points into the heap at a node whose
id is the binding key, and the keys are pairwise distinct.  Both hold for
every graph reachable through the construction API (AddVertex stores the
node with `Id = id` under key `id`, and a Go map has unique keys). -/
def wfBindings (st : St) : Prop :=
  (∀ kp ∈ st.dag.nodes, kp.2 < st.heap.length ∧ (getN st kp.2).id = kp.1) ∧
  (st.dag.nodes.map Prod.fst).Nodup

/-- All `children` and `prev` pointers of map nodes are live heap pointers
(no construction step ever stores an out-of-range pointer). -/
def ptrsBounded (st : St) : Prop :=
  ∀ kp ∈ st.dag.nodes,
    (∀ q ∈ (getN st kp.2).children, q < st.heap.length) ∧
    (∀ q ∈ (getN st kp.2).prev, q < st.heap.length)

/-- No heap node already carries the synthetic exit id `"end_<dagId>"`. -/
def freshEndId (st : St) : Prop :=
  ∀ p, p < st.heap.length → (getN st p).id ≠ "end_" ++ st.dag.id

/-- Loop invariant for the exit-merging loop of `Validate`, relating the
state `cur` inside the loop to the pre-`Validate` state `st`.  `L` is the
pointer of the synthesized exit node (the pre-`Validate` heap length),
`endId` its id and `pre` the already processed original exits. -/
structure MergeInv (st : St) (L : Nat) (endId : String) (pre : List Nat) (cur : St) : Prop where
  hlen : cur.heap.length = L + 1
  hmap : cur.dag.nodes = st.dag.nodes ++ [(endId, L)]
  hold : ∀ p, p < L →
    (getN cur p).id = (getN st p).id ∧
    (getN cur p).prev = (getN st p).prev
  hunproc : ∀ p, p < L → p ∉ pre →
    (getN cur p).children = (getN st p).children ∧
    (getN cur p).outdegree = (getN st p).outdegree
  hproc : ∀ p ∈ pre,
    p < L ∧ (getN st p).outdegree = 0 ∧
    (getN cur p).outdegree = 1 ∧
    (getN cur p).children = (getN st p).children ++ [L] ∧
    mapLookup (getN cur p).forwarder endId = some false
  hend : (getN cur L).id = endId ∧ (getN cur L).children = [] ∧
    (getN cur L).next = [] ∧ (getN cur L).outdegree = 0 ∧
    (getN cur L).dependsOn = pre

/-! ## Map and heap lemmas -/

theorem mapLookup_mapInsert_self {α : Type} (m : List (String × α)) (k : String) (v : α) :
    mapLookup (mapInsert m k v) k = some v := by
  induction m with
  | nil => simp [mapInsert, mapLookup]
  | cons kv rest ih =>
    by_cases h : kv.1 = k
    · simp [mapInsert, mapLookup, h]
    · simp [mapInsert, mapLookup, h, ih]

theorem mapLookup_mapInsert_other {α : Type} (m : List (String × α)) (k k' : String) (v : α)
    (h : k' ≠ k) : mapLookup (mapInsert m k v) k' = mapLookup m k' := by
  have hk : ¬ k = k' := fun hh => h hh.symm
  induction m with
  | nil => simp [mapInsert, mapLookup, hk]
  | cons kv rest ih =>
    by_cases h1 : kv.1 = k
    · subst h1
      simp [mapInsert, mapLookup, hk]
    · simp only [mapInsert, if_neg h1]
      by_cases h2 : kv.1 = k'
      · simp [mapLookup, h2]
      · simp [mapLookup, h2, ih]

theorem get?_concat_len (l : List Node) (n : Node) : (l ++ [n])[l.length]? = some n := by
  induction l with
  | nil => rfl
  | cons a rest ih => simp [ih]

theorem getN_concat_self (st : St) (n : Node) :
    getN { st with heap := st.heap ++ [n] } st.heap.length = n := by
  simp [getN, get?_concat_len]

theorem getN_concat_lt (st : St) (n : Node) (q : Nat) (h : q < st.heap.length) :
    getN { st with heap := st.heap ++ [n] } q = getN st q := by
  simp [getN, List.getElem?_append_left h]

/-! ## C1 — Validate is not equivalent to non-empty ∧ acyclic ∧ unique start -/

/-- C1: refutation at a concrete input.  The graph {a→a, b} is reachable
through the construction API (AddEdge accepts the self-loop) and its edge
relation is cyclic — node "a" is among its own children — yet Validate
returns nil: b is the only indegree-0 and only outdegree-0 node, and
Validate carries no cycle check of its own. -/
theorem validate_succeeds_on_cyclic_graph :
    (addEdge newSt "a" "a").1 = none ∧
    (getN selfLoopPlusB 0).id = "a" ∧
    (getN selfLoopPlusB 0).children = [0] ∧
    (validate selfLoopPlusB).isNilReturn = true := by decide

/-! ## C2 — AddEdge accepts the self-loop -/

/-- C2: refutation at a concrete input.  The claim requires
`AddEdge(from, from)` to fail with the cyclic error and leave indegree,
outdegree and adjacency untouched; on a fresh dag `AddEdge("a","a")` instead
returns nil and records the edge: indegree and outdegree of "a" become 1 and
"a" appears among its own children and dependencies.  (The checks consult the
`next`/`prev` caches, which are both still empty for a fresh node.) -/
theorem addEdge_self_loop_accepted :
    (addEdge newSt "a" "a").1 = none ∧
    (getN selfLoopSt 0).id = "a" ∧
    (getN selfLoopSt 0).indegree = 1 ∧
    (getN selfLoopSt 0).outdegree = 1 ∧
    (getN selfLoopSt 0).children = [0] ∧
    (getN selfLoopSt 0).dependsOn = [0] := by decide

/-! ## C4 — Validate can panic -/

/-- C4: refutation at a concrete input.  On the self-loop graph {a→a} every
node has outdegree 1, so `endNodes` stays empty and `initialNodeCount` is 0;
Validate then evaluates `endNodes[0]` on a nil slice — an uncontrolled Go
runtime panic (index out of range), not a returned error. -/
theorem validate_panics_on_self_loop :
    (validate selfLoopSt).isPanic = true := by decide

/-! ## C6 — Run does not check the validated flag -/

/-- C6: refutation at a concrete input.  The claim requires Run on a
never-validated graph to be rejected with an explicit error and to execute no
task; `Flow.Run` never reads `dag.validated` and has no error result, and on
the unvalidated one-node graph it invokes the task of node "a" and then
blocks on the never-closed ready channel. -/
theorem run_ignores_validated_flag :
    unvalidatedSt.dag.validated = false ∧
    (run (fun _ => none) 2 unvalidatedSt).trace = ["a"] ∧
    (run (fun _ => none) 2 unvalidatedSt).isReturned = false := by decide

/-! ## C7 — AddVertex overwrites an existing id -/

/-- C7: refutation at a concrete input.  Re-adding vertex "a" is not rejected
— `AddVertex` has no error result at all — and the node stored under "a"
changes: before the second call "a" is bound to the heap node with index 1
and operations `[custom 7]`, afterwards to a fresh node with index 2 and
operations `[custom 9]`. -/
theorem addVertex_overwrites_duplicate :
    mapLookup dupVertexSt1.dag.nodes "a" = some 0 ∧
    (getN dupVertexSt1 0).index = 1 ∧
    (getN dupVertexSt1 0).operations = [.custom 7] ∧
    mapLookup dupVertexSt2.dag.nodes "a" = some 1 ∧
    (getN dupVertexSt2 1).index = 2 ∧
    (getN dupVertexSt2 1).operations = [.custom 9] := by decide

/-- C7 (amended): calling `AddVertex(id, ops)` when `id` is already bound
reports no error and silently replaces the stored node: the id becomes bound
to a fresh heap node carrying the given operations and the next sequential
index, the previous node is no longer reachable under that id, and every
other binding and every pre-existing heap node is untouched. -/
theorem addVertex_replaces_existing (st : St) (id : String) (ops : List Operation) (p : Nat)
    (_hb : mapLookup st.dag.nodes id = some p) (hp : p < st.heap.length) :
    (addVertex st id ops).1 = st.heap.length ∧
    mapLookup (addVertex st id ops).2.dag.nodes id = some st.heap.length ∧
    st.heap.length ≠ p ∧
    getN (addVertex st id ops).2 st.heap.length =
      { defNode with id := id, operations := ops, index := st.dag.nodeIndex + 1 } ∧
    (∀ k, k ≠ id → mapLookup (addVertex st id ops).2.dag.nodes k = mapLookup st.dag.nodes k) ∧
    (∀ q, q < st.heap.length → getN (addVertex st id ops).2 q = getN st q) := by
  refine ⟨rfl, ?_, ?_, ?_, ?_, ?_⟩
  · simpa [addVertex] using mapLookup_mapInsert_self st.dag.nodes id st.heap.length
  · exact fun h => absurd hp (by simp [h])
  · simpa [addVertex] using getN_concat_self st _
  · intro k hk
    simpa [addVertex] using mapLookup_mapInsert_other st.dag.nodes id k st.heap.length hk
  · intro q hq
    simpa [addVertex] using getN_concat_lt st _ q hq

/-- Witness for C7 (amended) at the concrete duplicate insertion of "a". -/
theorem addVertex_replaces_existing_witness :
    (addVertex dupVertexSt1 "a" [.custom 9]).1 = dupVertexSt1.heap.length ∧
    mapLookup (addVertex dupVertexSt1 "a" [.custom 9]).2.dag.nodes "a"
      = some dupVertexSt1.heap.length ∧
    dupVertexSt1.heap.length ≠ 0 ∧
    getN (addVertex dupVertexSt1 "a" [.custom 9]).2 dupVertexSt1.heap.length =
      { defNode with id := "a", operations := [.custom 9],
                     index := dupVertexSt1.dag.nodeIndex + 1 } ∧
    (∀ k, k ≠ "a" →
      mapLookup (addVertex dupVertexSt1 "a" [.custom 9]).2.dag.nodes k
        = mapLookup dupVertexSt1.dag.nodes k) ∧
    (∀ q, q < dupVertexSt1.heap.length →
      getN (addVertex dupVertexSt1 "a" [.custom 9]).2 q = getN dupVertexSt1 q) :=
  addVertex_replaces_existing dupVertexSt1 "a" [.custom 9] 0 (by decide) (by decide)

/-! ## C9 — Validate is idempotent after success -/

/-- C9: a successful Validate leaves the dag marked validated, and a second
Validate call on the resulting graph returns the same nil result with the
state completely unchanged — in particular every node keeps the uniqueId
assigned by the first successful call. -/
theorem validate_idempotent (st st' : St) (h : validate st = .ret none st') :
    st'.dag.validated = true ∧ validate st' = .ret none st' := by
  have hv : st'.dag.validated = true := by
    simp only [validate] at h
    split at h
    · next hval =>
        simp only [Vres.ret.injEq] at h
        rw [← h.2]
        exact hval
    · split at h
      · simp at h
      · split at h
        · simp at h
        · split at h
          · split at h
            · simp at h
            · simp only [Vres.ret.injEq] at h
              rw [← h.2]
          · split at h
            · simp at h
            · simp only [Vres.ret.injEq] at h
              rw [← h.2]
  exact ⟨hv, by simp [validate, hv]⟩

/-- Witness for C9 at the concrete graph a→b. -/
theorem validate_idempotent_witness :
    exABV.dag.validated = true ∧ validate exABV = .ret none exABV :=
  validate_idempotent exAB exABV (by decide)

/-! ## C10 — Append rejects every non-empty dag -/

/-- C10: `Dag.Append` looks each appended node id up in the appended dag's
own node map — the map being iterated, which always contains the id — so
appending any dag with at least one node fails with the duplicate-vertex
error and copies nothing into the receiver, and appending an empty dag is
the only way to get nil. -/
theorem append_duplicate_vertex_iff (st : St) (other : Dag) :
    (other.nodes = [] → appendD st other = (none, st)) ∧
    (other.nodes ≠ [] → appendD st other = (some .duplicateVertex, st)) := by
  constructor
  · intro h
    simp [appendD, h, appendLoop]
  · intro h
    match ho : other.nodes with
    | [] => exact absurd ho h
    | (k, p) :: rest =>
      simp [appendD, ho, appendLoop, mapLookup]

/-- Witness for C10: appending the non-empty dag of a→b into a fresh dag
fails with the duplicate-vertex error and copies nothing; appending an empty
dag returns nil. -/
theorem append_duplicate_vertex_iff_witness :
    appendD newSt exAB.dag = (some .duplicateVertex, newSt) ∧
    appendD newSt newSt.dag = (none, newSt) :=
  ⟨(append_duplicate_vertex_iff newSt exAB.dag).2 (by decide),
   (append_duplicate_vertex_iff newSt newSt.dag).1 (by decide)⟩

/-! ## C5 — Run never returns -/

theorem runLoop_isReturned_false (tasks : String → Option Nat) :
    ∀ (fuel : Nat) (st : St) (q : List Nat) (tr : List String),
      (runLoop tasks fuel st q tr).isReturned = false := by
  intro fuel
  induction fuel with
  | zero => intro st q tr; rfl
  | succ n ih =>
    intro st q tr
    cases q with
    | nil => rfl
    | cons p rest =>
      simp only [runLoop]
      exact ih _ _ _

/-- C5: refutation.  The claim requires Run to return once every node is
Done, via an explicitly tracked not-yet-Done count; the code has no such
count and its dispatch loop ranges over `readyChan`, which no statement in
the source ever closes — so for every graph (validated or not), every task
assignment and every fuel bound, Run never reaches its return statement. -/
theorem run_never_returns (tasks : String → Option Nat) (fuel : Nat) (st : St) :
    (run tasks fuel st).isReturned = false :=
  runLoop_isReturned_false tasks fuel st _ _

/-! ## C3 — task errors are discarded wholesale -/

theorem runLoop_ignores_task_errors (tasks1 tasks2 : String → Option Nat) :
    ∀ (fuel : Nat) (st : St) (q : List Nat) (tr : List String),
      runLoop tasks1 fuel st q tr = runLoop tasks2 fuel st q tr := by
  intro fuel
  induction fuel with
  | zero => intro st q tr; rfl
  | succ n ih =>
    intro st q tr
    cases q with
    | nil => rfl
    | cons p rest =>
      simp only [runLoop, runNodeDone]
      exact ih _ _ _

/-- C3: refutation.  The claim requires every node error to be recorded and
aggregated into the run's result; in the code `Flow.Run` discards the error
(`if err != nil {}` with an empty body) and `RunNodeDone` ignores its err
parameter, so the entire observable outcome of a run — dispatch trace and
final state — is identical under any two task assignments, whatever errors
they return.  No error is recorded anywhere; sibling branches do keep
executing, but only because errors are ignored outright. -/
theorem run_discards_all_task_errors (tasks1 tasks2 : String → Option Nat)
    (fuel : Nat) (st : St) :
    run tasks1 fuel st = run tasks2 fuel st :=
  runLoop_ignores_task_errors tasks1 tasks2 fuel st _ _

/-! ## Generic state-update lemmas (for C8) -/

theorem updN_dag (st : St) (p : Nat) (f : Node → Node) : (updN st p f).dag = st.dag := rfl

theorem updN_len (st : St) (p : Nat) (f : Node → Node) :
    (updN st p f).heap.length = st.heap.length := by
  simp [updN]

theorem getN_updN_other (st : St) (p q : Nat) (f : Node → Node) (h : q ≠ p) :
    getN (updN st p f) q = getN st q := by
  simp [updN, getN, List.getElem?_set_ne (show p ≠ q from fun hh => h hh.symm)]

theorem getN_updN_self (st : St) (p : Nat) (f : Node → Node) (h : p < st.heap.length) :
    getN (updN st p f) p = f (getN st p) := by
  simp [updN, getN, List.getElem?_set_self h]

theorem updN_oob (st : St) (p : Nat) (f : Node → Node) (h : st.heap.length ≤ p) :
    updN st p f = st := by
  simp [updN, List.set_eq_of_length_le h]

theorem getN_updN_pres {α : Type} (g : Node → α) (st : St) (p : Nat) (f : Node → Node)
    (hf : ∀ n, g (f n) = g n) (q : Nat) : g (getN (updN st p f) q) = g (getN st q) := by
  by_cases hq : q = p
  · subst hq
    by_cases hlt : q < st.heap.length
    · rw [getN_updN_self st q f hlt, hf]
    · rw [updN_oob st q f (Nat.le_of_not_lt hlt)]
  · rw [getN_updN_other st p q f hq]

theorem getN_heap_congr (st1 st2 : St) (h : st1.heap = st2.heap) (q : Nat) :
    getN st1 q = getN st2 q := by
  simp [getN, h]

theorem pushNext_dag (toP : Nat) (st : St) (b : Nat) : (pushNext toP st b).dag = st.dag := rfl

theorem pushNext_len (toP : Nat) (st : St) (b : Nat) :
    (pushNext toP st b).heap.length = st.heap.length := by
  unfold pushNext
  rw [updN_len, updN_len]

theorem getN_pushNext_pres {α : Type} (g : Node → α)
    (hg : ∀ n x, g { n with next := x } = g n) (toP : Nat) (st : St) (b q : Nat) :
    g (getN (pushNext toP st b) q) = g (getN st q) := by
  unfold pushNext
  rw [getN_updN_pres g _ b _ (fun n => hg _ _), getN_updN_pres g _ b _ (fun n => hg _ _)]

theorem getN_pushNext_other (toP : Nat) (st : St) (b q : Nat) (h : q ≠ b) :
    getN (pushNext toP st b) q = getN st q := by
  unfold pushNext
  rw [getN_updN_other _ _ _ _ h, getN_updN_other _ _ _ _ h]

theorem pushPrev_dag (fromP : Nat) (st : St) (b : Nat) : (pushPrev fromP st b).dag = st.dag :=
  rfl

theorem pushPrev_len (fromP : Nat) (st : St) (b : Nat) :
    (pushPrev fromP st b).heap.length = st.heap.length := by
  unfold pushPrev
  rw [updN_len, updN_len]

theorem getN_pushPrev_pres {α : Type} (g : Node → α)
    (hg : ∀ n x, g { n with prev := x } = g n) (fromP : Nat) (st : St) (b q : Nat) :
    g (getN (pushPrev fromP st b) q) = g (getN st q) := by
  unfold pushPrev
  rw [getN_updN_pres g _ b _ (fun n => hg _ _), getN_updN_pres g _ b _ (fun n => hg _ _)]

theorem getN_pushPrev_other (fromP : Nat) (st : St) (b q : Nat) (h : q ≠ b) :
    getN (pushPrev fromP st b) q = getN st q := by
  unfold pushPrev
  rw [getN_updN_other _ _ _ _ h, getN_updN_other _ _ _ _ h]

theorem foldl_st_pres {α : Type} (P : St → α) (step : St → Nat → St)
    (hstep : ∀ s x, P (step s x) = P s) :
    ∀ (l : List Nat) (s : St), P (l.foldl step s) = P s := by
  intro l
  induction l with
  | nil => intro s; rfl
  | cons x rest ih =>
    intro s
    rw [List.foldl_cons, ih, hstep]

theorem getN_foldl_of_ne (step : St → Nat → St)
    (hstep : ∀ s x q, q ≠ x → getN (step s x) q = getN s q) :
    ∀ (l : List Nat) (s : St) (q : Nat), q ∉ l → getN (l.foldl step s) q = getN s q := by
  intro l
  induction l with
  | nil => intro s q _; rfl
  | cons x rest ih =>
    intro s q hq
    rw [List.foldl_cons, ih _ _ (fun hm => hq (List.mem_cons_of_mem _ hm)),
        hstep _ _ _ (fun he => hq (by rw [he]; exact List.mem_cons_self _ _))]

theorem addForwarder_heap (st : St) (p : Nat) (c : String) (flag : Bool) :
    (addForwarder st p c flag).heap =
      (updN st p (fun n => { n with forwarder := mapInsert n.forwarder c flag })).heap := by
  simp only [addForwarder]
  split
  · rfl
  · split
    · rfl
    · rfl

theorem addForwarder_nodes (st : St) (p : Nat) (c : String) (flag : Bool) :
    (addForwarder st p c flag).dag.nodes = st.dag.nodes := by
  simp only [addForwarder]
  split
  · rfl
  · split
    · rfl
    · rfl

theorem addForwarder_dag_id (st : St) (p : Nat) (c : String) (flag : Bool) :
    (addForwarder st p c flag).dag.id = st.dag.id := by
  simp only [addForwarder]
  split
  · rfl
  · split
    · rfl
    · rfl

theorem addForwarder_len (st : St) (p : Nat) (c : String) (flag : Bool) :
    (addForwarder st p c flag).heap.length = st.heap.length := by
  rw [show (addForwarder st p c flag).heap.length
        = (updN st p (fun n => { n with forwarder := mapInsert n.forwarder c flag })).heap.length
      from congrArg List.length (addForwarder_heap st p c flag), updN_len]

theorem getN_addForwarder (st : St) (p : Nat) (c : String) (flag : Bool) (q : Nat) :
    getN (addForwarder st p c flag) q
      = getN (updN st p (fun n => { n with forwarder := mapInsert n.forwarder c flag })) q :=
  getN_heap_congr _ _ (addForwarder_heap st p c flag) q

/-! ## Stage lemmas for the success tail of AddEdge (for C8) -/

theorem linkCaches_dag (cur : St) (b L : Nat) : (linkCaches cur b L).dag = cur.dag := by
  simp only [linkCaches]
  rw [foldl_st_pres St.dag _ (fun s x => pushPrev_dag b s x), pushPrev_dag,
      foldl_st_pres St.dag _ (fun s x => pushNext_dag L s x), pushNext_dag]

theorem linkCaches_len (cur : St) (b L : Nat) :
    (linkCaches cur b L).heap.length = cur.heap.length := by
  simp only [linkCaches]
  rw [foldl_st_pres (fun s => s.heap.length) _ (fun s x => pushPrev_len b s x), pushPrev_len,
      foldl_st_pres (fun s => s.heap.length) _ (fun s x => pushNext_len L s x), pushNext_len]

theorem linkCaches_pres {α : Type} (g : Node → α)
    (hgN : ∀ n x, g { n with next := x } = g n)
    (hgP : ∀ n x, g { n with prev := x } = g n)
    (cur : St) (b L q : Nat) :
    g (getN (linkCaches cur b L) q) = g (getN cur q) := by
  simp only [linkCaches]
  rw [foldl_st_pres (fun s => g (getN s q)) _
        (fun s x => getN_pushPrev_pres g hgP b s x q),
      getN_pushPrev_pres g hgP b _ L q,
      foldl_st_pres (fun s => g (getN s q)) _
        (fun s x => getN_pushNext_pres g hgN L s x q),
      getN_pushNext_pres g hgN L cur b q]

theorem linkCaches_eq (cur : St) (b L : Nat) (hbL : b ≠ L)
    (hLnext : (getN cur L).next = []) (hprevNoL : L ∉ (getN cur b).prev) :
    linkCaches cur b L =
      pushPrev b ((getN cur b).prev.foldl (pushNext L) (pushNext L cur b)) L := by
  simp only [linkCaches]
  rw [getN_pushNext_pres Node.prev (fun n x => rfl) L cur b b]
  have h2 : getN ((getN cur b).prev.foldl (pushNext L) (pushNext L cur b)) L = getN cur L := by
    rw [getN_foldl_of_ne _ (fun s x q hq => getN_pushNext_other L s x q hq) _ _ _ hprevNoL,
        getN_pushNext_other L cur b L (fun h => hbL h.symm)]
  have h3 : (getN (pushPrev b ((getN cur b).prev.foldl (pushNext L) (pushNext L cur b)) L)
      L).next = [] := by
    rw [getN_pushPrev_pres Node.next (fun n x => rfl) b _ L L, h2, hLnext]
  rw [h3]
  rfl

theorem linkCaches_prev (cur : St) (b L : Nat) (hbL : b ≠ L)
    (hLnext : (getN cur L).next = []) (hprevNoL : L ∉ (getN cur b).prev) :
    ∀ q, q ≠ L → (getN (linkCaches cur b L) q).prev = (getN cur q).prev := by
  intro q hqL
  rw [linkCaches_eq cur b L hbL hLnext hprevNoL,
      getN_pushPrev_other b _ L q hqL,
      foldl_st_pres (fun s => (getN s q).prev) _
        (fun s x => getN_pushNext_pres Node.prev (fun n x => rfl) L s x q),
      getN_pushNext_pres Node.prev (fun n x => rfl) L cur b q]

theorem linkCaches_next_at (cur : St) (b L : Nat) (hbL : b ≠ L)
    (hLnext : (getN cur L).next = []) (hprevNoL : L ∉ (getN cur b).prev) :
    (getN (linkCaches cur b L) L).next = [] := by
  rw [linkCaches_eq cur b L hbL hLnext hprevNoL,
      getN_pushPrev_pres Node.next (fun n x => rfl) b _ L L,
      getN_foldl_of_ne _ (fun s x q hq => getN_pushNext_other L s x q hq) _ _ _ hprevNoL,
      getN_pushNext_other L cur b L (fun h => hbL h.symm), hLnext]

theorem linkAdjacency_dag (cur : St) (b L : Nat) : (linkAdjacency cur b L).dag = cur.dag := by
  simp only [linkAdjacency]
  rw [updN_dag, updN_dag]

theorem linkAdjacency_len (cur : St) (b L : Nat) :
    (linkAdjacency cur b L).heap.length = cur.heap.length := by
  simp only [linkAdjacency]
  rw [updN_len, updN_len]

theorem linkAdjacency_pres {α : Type} (g : Node → α)
    (hgC : ∀ n x, g { n with children := x } = g n)
    (hgD : ∀ n x, g { n with dependsOn := x } = g n)
    (cur : St) (b L q : Nat) :
    g (getN (linkAdjacency cur b L) q) = g (getN cur q) := by
  simp only [linkAdjacency]
  rw [getN_updN_pres g _ L _ (fun n => hgD _ _) q, getN_updN_pres g _ b _ (fun n => hgC _ _) q]

theorem linkAdjacency_children_other (cur : St) (b L q : Nat) (h : q ≠ b) :
    (getN (linkAdjacency cur b L) q).children = (getN cur q).children := by
  simp only [linkAdjacency]
  rw [getN_updN_pres Node.children _ L (fun n => { n with dependsOn := n.dependsOn ++ [b] })
        (fun n => rfl) q,
      getN_updN_other _ _ _ _ h]

theorem linkAdjacency_children_at (cur : St) (b L : Nat) (hb : b < cur.heap.length) :
    (getN (linkAdjacency cur b L) b).children = (getN cur b).children ++ [L] := by
  simp only [linkAdjacency]
  rw [getN_updN_pres Node.children _ L (fun n => { n with dependsOn := n.dependsOn ++ [b] })
        (fun n => rfl) b,
      getN_updN_self cur b _ hb]

theorem linkAdjacency_dependsOn_other (cur : St) (b L q : Nat) (h : q ≠ L) :
    (getN (linkAdjacency cur b L) q).dependsOn = (getN cur q).dependsOn := by
  simp only [linkAdjacency]
  rw [getN_updN_other _ _ _ _ h,
      getN_updN_pres Node.dependsOn _ b (fun n => { n with children := n.children ++ [L] })
        (fun n => rfl) q]

theorem linkAdjacency_dependsOn_at (cur : St) (b L : Nat) (hbL : b ≠ L)
    (hL : L < cur.heap.length) :
    (getN (linkAdjacency cur b L) L).dependsOn = (getN cur L).dependsOn ++ [b] := by
  simp only [linkAdjacency]
  rw [getN_updN_self _ L _ (by rw [updN_len]; exact hL)]
  dsimp only
  rw [getN_updN_other _ _ _ _ (fun h => hbL h.symm)]

theorem linkDegrees_dag (cur : St) (b L : Nat) : (linkDegrees cur b L).dag = cur.dag := by
  simp only [linkDegrees]
  rw [updN_dag]
  split
  · rw [updN_dag, updN_dag]
  · rw [updN_dag]

theorem linkDegrees_len (cur : St) (b L : Nat) :
    (linkDegrees cur b L).heap.length = cur.heap.length := by
  simp only [linkDegrees]
  rw [updN_len]
  split
  · rw [updN_len, updN_len]
  · rw [updN_len]

theorem linkDegrees_pres {α : Type} (g : Node → α)
    (hgI : ∀ n x, g { n with indegree := x } = g n)
    (hgY : ∀ n x, g { n with dynamicIndegree := x } = g n)
    (hgO : ∀ n x, g { n with outdegree := x } = g n)
    (cur : St) (b L q : Nat) :
    g (getN (linkDegrees cur b L) q) = g (getN cur q) := by
  simp only [linkDegrees]
  rw [getN_updN_pres g _ b _ (fun n => hgO _ _) q]
  split
  · rw [getN_updN_pres g _ L _ (fun n => hgY _ _) q, getN_updN_pres g _ L _ (fun n => hgI _ _) q]
  · rw [getN_updN_pres g _ L _ (fun n => hgI _ _) q]

theorem linkDegrees_outdeg_other (cur : St) (b L q : Nat) (h : q ≠ b) :
    (getN (linkDegrees cur b L) q).outdegree = (getN cur q).outdegree := by
  simp only [linkDegrees]
  rw [getN_updN_other _ _ _ _ h]
  split
  · rw [getN_updN_pres Node.outdegree _ L
          (fun n => { n with dynamicIndegree := n.dynamicIndegree + 1 }) (fun n => rfl) q,
        getN_updN_pres Node.outdegree _ L
          (fun n => { n with indegree := n.indegree + 1 }) (fun n => rfl) q]
  · rw [getN_updN_pres Node.outdegree _ L
          (fun n => { n with indegree := n.indegree + 1 }) (fun n => rfl) q]

theorem linkDegrees_outdeg_at (cur : St) (b L : Nat) (hb : b < cur.heap.length) :
    (getN (linkDegrees cur b L) b).outdegree = (getN cur b).outdegree + 1 := by
  simp only [linkDegrees]
  split
  · rw [getN_updN_self _ b _ (by rw [updN_len, updN_len]; exact hb)]
    dsimp only
    rw [getN_updN_pres Node.outdegree _ L
          (fun n => { n with dynamicIndegree := n.dynamicIndegree + 1 }) (fun n => rfl) b,
        getN_updN_pres Node.outdegree _ L
          (fun n => { n with indegree := n.indegree + 1 }) (fun n => rfl) b]
  · rw [getN_updN_self _ b _ (by rw [updN_len]; exact hb)]
    dsimp only
    rw [getN_updN_pres Node.outdegree _ L
          (fun n => { n with indegree := n.indegree + 1 }) (fun n => rfl) b]

theorem linkFlags_heap (cur : St) (b L : Nat) : (linkFlags cur b L).heap = cur.heap := by
  unfold linkFlags
  split
  · rfl
  · rfl

theorem linkFlags_nodes (cur : St) (b L : Nat) :
    (linkFlags cur b L).dag.nodes = cur.dag.nodes := by
  unfold linkFlags
  split
  · rfl
  · rfl

/-- Full field-level description of the success tail of `AddEdge` when the
target `L` is a fresh sink (empty `next`, not yet in anybody's `prev`): the
map is unchanged; nodes other than `b` and `L` keep id, prev, children,
outdegree and forwarder; `b` gains child `L` and one outdegree; `L` keeps an
empty `next`, its children and outdegree, and gains `b` in `dependsOn`. -/
theorem addEdgeLink_heap_eq (cur : St) (b L : Nat) (endId : String) :
    (addEdgeLink cur b L endId).heap
      = (linkFlags (addForwarder (linkDegrees (linkAdjacency
          (linkCaches cur b L) b L) b L) b endId true) b L).heap := by
  simp only [addEdgeLink]

theorem getN_addEdgeLink (cur : St) (b L : Nat) (endId : String) (q : Nat) :
    getN (addEdgeLink cur b L endId) q
      = getN (linkFlags (addForwarder (linkDegrees (linkAdjacency
          (linkCaches cur b L) b L) b L) b endId true) b L) q :=
  getN_heap_congr (addEdgeLink cur b L endId)
    (linkFlags (addForwarder (linkDegrees (linkAdjacency
      (linkCaches cur b L) b L) b L) b endId true) b L)
    (addEdgeLink_heap_eq cur b L endId) q

theorem addEdgeLink_nodes_eq (cur : St) (b L : Nat) (endId : String) :
    (addEdgeLink cur b L endId).dag.nodes
      = (linkFlags (addForwarder (linkDegrees (linkAdjacency
          (linkCaches cur b L) b L) b L) b endId true) b L).dag.nodes := by
  simp only [addEdgeLink]

theorem addEdgeLink_len_eq (cur : St) (b L : Nat) (endId : String) :
    (addEdgeLink cur b L endId).heap.length
      = (linkFlags (addForwarder (linkDegrees (linkAdjacency
          (linkCaches cur b L) b L) b L) b endId true) b L).heap.length :=
  congrArg List.length (addEdgeLink_heap_eq cur b L endId)

set_option maxHeartbeats 800000 in
/-- Full field-level description of the success tail of `AddEdge` when the
target `L` is a fresh sink (empty `next`, not yet in anybody's `prev`): the
map is unchanged; nodes other than `b` and `L` keep id, prev, children,
outdegree and forwarder; `b` gains child `L` and one outdegree; `L` keeps an
empty `next`, its children and outdegree, and gains `b` in `dependsOn`. -/
theorem addEdgeLink_spec (cur : St) (b L : Nat) (endId : String)
    (hbL : b ≠ L) (hb : b < cur.heap.length) (hL : L < cur.heap.length)
    (hLnext : (getN cur L).next = []) (hprevNoL : L ∉ (getN cur b).prev) :
    (addEdgeLink cur b L endId).dag.nodes = cur.dag.nodes ∧
    (addEdgeLink cur b L endId).heap.length = cur.heap.length ∧
    (∀ q, q ≠ b → q ≠ L →
      (getN (addEdgeLink cur b L endId) q).id = (getN cur q).id ∧
      (getN (addEdgeLink cur b L endId) q).prev = (getN cur q).prev ∧
      (getN (addEdgeLink cur b L endId) q).children = (getN cur q).children ∧
      (getN (addEdgeLink cur b L endId) q).outdegree = (getN cur q).outdegree ∧
      (getN (addEdgeLink cur b L endId) q).forwarder = (getN cur q).forwarder) ∧
    ((getN (addEdgeLink cur b L endId) b).id = (getN cur b).id ∧
     (getN (addEdgeLink cur b L endId) b).prev = (getN cur b).prev ∧
     (getN (addEdgeLink cur b L endId) b).children = (getN cur b).children ++ [L] ∧
     (getN (addEdgeLink cur b L endId) b).outdegree = (getN cur b).outdegree + 1) ∧
    ((getN (addEdgeLink cur b L endId) L).id = (getN cur L).id ∧
     (getN (addEdgeLink cur b L endId) L).children = (getN cur L).children ∧
     (getN (addEdgeLink cur b L endId) L).next = [] ∧
     (getN (addEdgeLink cur b L endId) L).outdegree = (getN cur L).outdegree ∧
     (getN (addEdgeLink cur b L endId) L).dependsOn = (getN cur L).dependsOn ++ [b]) := by
  have hcl : ∀ q, getN (addEdgeLink cur b L endId) q
      = getN (updN (linkDegrees (linkAdjacency (linkCaches cur b L) b L) b L) b
          (fun n => { n with forwarder := mapInsert n.forwarder endId true })) q := by
    intro q
    rw [getN_addEdgeLink cur b L endId q,
        getN_heap_congr _ _ (linkFlags_heap _ b L) q,
        getN_addForwarder _ b endId true q]
  have hlen1 : (linkCaches cur b L).heap.length = cur.heap.length := linkCaches_len cur b L
  have hlen2 : (linkAdjacency (linkCaches cur b L) b L).heap.length = cur.heap.length := by
    rw [linkAdjacency_len, hlen1]
  have hb1 : b < (linkCaches cur b L).heap.length := by rw [hlen1]; exact hb
  have hb2 : b < (linkAdjacency (linkCaches cur b L) b L).heap.length := by
    rw [hlen2]; exact hb
  have hL1 : L < (linkCaches cur b L).heap.length := by rw [hlen1]; exact hL
  refine ⟨?_, ?_, ?_, ⟨?_, ?_, ?_, ?_⟩, ⟨?_, ?_, ?_, ?_, ?_⟩⟩
  · rw [addEdgeLink_nodes_eq, linkFlags_nodes, addForwarder_nodes]
    rw [show (linkDegrees (linkAdjacency (linkCaches cur b L) b L) b L).dag.nodes
          = (linkAdjacency (linkCaches cur b L) b L).dag.nodes
        from congrArg Dag.nodes (linkDegrees_dag _ b L)]
    rw [show (linkAdjacency (linkCaches cur b L) b L).dag.nodes
          = (linkCaches cur b L).dag.nodes
        from congrArg Dag.nodes (linkAdjacency_dag _ b L)]
    rw [show (linkCaches cur b L).dag.nodes = cur.dag.nodes
        from congrArg Dag.nodes (linkCaches_dag cur b L)]
  · rw [addEdgeLink_len_eq,
        show (linkFlags (addForwarder (linkDegrees (linkAdjacency
            (linkCaches cur b L) b L) b L) b endId true) b L).heap.length
          = (addForwarder (linkDegrees (linkAdjacency
            (linkCaches cur b L) b L) b L) b endId true).heap.length
        from congrArg List.length (linkFlags_heap _ b L),
        addForwarder_len, linkDegrees_len, hlen2]
  · intro q hqb hqL
    refine ⟨?_, ?_, ?_, ?_, ?_⟩
    · rw [hcl q,
          getN_updN_pres Node.id _ b
            (fun n => { n with forwarder := mapInsert n.forwarder endId true })
            (fun n => rfl) q,
          linkDegrees_pres Node.id (fun n x => rfl) (fun n x => rfl) (fun n x => rfl) _ b L q,
          linkAdjacency_pres Node.id (fun n x => rfl) (fun n x => rfl) _ b L q,
          linkCaches_pres Node.id (fun n x => rfl) (fun n x => rfl) cur b L q]
    · rw [hcl q,
          getN_updN_pres Node.prev _ b
            (fun n => { n with forwarder := mapInsert n.forwarder endId true })
            (fun n => rfl) q,
          linkDegrees_pres Node.prev (fun n x => rfl) (fun n x => rfl) (fun n x => rfl) _ b L q,
          linkAdjacency_pres Node.prev (fun n x => rfl) (fun n x => rfl) _ b L q,
          linkCaches_prev cur b L hbL hLnext hprevNoL q hqL]
    · rw [hcl q,
          getN_updN_pres Node.children _ b
            (fun n => { n with forwarder := mapInsert n.forwarder endId true })
            (fun n => rfl) q,
          linkDegrees_pres Node.children (fun n x => rfl) (fun n x => rfl) (fun n x => rfl)
            _ b L q,
          linkAdjacency_children_other _ b L q hqb,
          linkCaches_pres Node.children (fun n x => rfl) (fun n x => rfl) cur b L q]
    · rw [hcl q,
          getN_updN_pres Node.outdegree _ b
            (fun n => { n with forwarder := mapInsert n.forwarder endId true })
            (fun n => rfl) q,
          linkDegrees_outdeg_other _ b L q hqb,
          linkAdjacency_pres Node.outdegree (fun n x => rfl) (fun n x => rfl) _ b L q,
          linkCaches_pres Node.outdegree (fun n x => rfl) (fun n x => rfl) cur b L q]
    · rw [hcl q,
          getN_updN_other _ _ _ _ hqb,
          linkDegrees_pres Node.forwarder (fun n x => rfl) (fun n x => rfl) (fun n x => rfl)
            _ b L q,
          linkAdjacency_pres Node.forwarder (fun n x => rfl) (fun n x => rfl) _ b L q,
          linkCaches_pres Node.forwarder (fun n x => rfl) (fun n x => rfl) cur b L q]
  · rw [hcl b,
        getN_updN_pres Node.id _ b
          (fun n => { n with forwarder := mapInsert n.forwarder endId true })
          (fun n => rfl) b,
        linkDegrees_pres Node.id (fun n x => rfl) (fun n x => rfl) (fun n x => rfl) _ b L b,
        linkAdjacency_pres Node.id (fun n x => rfl) (fun n x => rfl) _ b L b,
        linkCaches_pres Node.id (fun n x => rfl) (fun n x => rfl) cur b L b]
  · rw [hcl b,
        getN_updN_pres Node.prev _ b
          (fun n => { n with forwarder := mapInsert n.forwarder endId true })
          (fun n => rfl) b,
        linkDegrees_pres Node.prev (fun n x => rfl) (fun n x => rfl) (fun n x => rfl) _ b L b,
        linkAdjacency_pres Node.prev (fun n x => rfl) (fun n x => rfl) _ b L b,
        linkCaches_prev cur b L hbL hLnext hprevNoL b hbL]
  · rw [hcl b,
        getN_updN_pres Node.children _ b
          (fun n => { n with forwarder := mapInsert n.forwarder endId true })
          (fun n => rfl) b,
        linkDegrees_pres Node.children (fun n x => rfl) (fun n x => rfl) (fun n x => rfl)
          _ b L b,
        linkAdjacency_children_at _ b L hb1,
        linkCaches_pres Node.children (fun n x => rfl) (fun n x => rfl) cur b L b]
  · rw [hcl b,
        getN_updN_pres Node.outdegree _ b
          (fun n => { n with forwarder := mapInsert n.forwarder endId true })
          (fun n => rfl) b,
        linkDegrees_outdeg_at _ b L hb2,
        linkAdjacency_pres Node.outdegree (fun n x => rfl) (fun n x => rfl) _ b L b,
        linkCaches_pres Node.outdegree (fun n x => rfl) (fun n x => rfl) cur b L b]
  · rw [hcl L,
        getN_updN_pres Node.id _ b
          (fun n => { n with forwarder := mapInsert n.forwarder endId true })
          (fun n => rfl) L,
        linkDegrees_pres Node.id (fun n x => rfl) (fun n x => rfl) (fun n x => rfl) _ b L L,
        linkAdjacency_pres Node.id (fun n x => rfl) (fun n x => rfl) _ b L L,
        linkCaches_pres Node.id (fun n x => rfl) (fun n x => rfl) cur b L L]
  · rw [hcl L,
        getN_updN_pres Node.children _ b
          (fun n => { n with forwarder := mapInsert n.forwarder endId true })
          (fun n => rfl) L,
        linkDegrees_pres Node.children (fun n x => rfl) (fun n x => rfl) (fun n x => rfl)
          _ b L L,
        linkAdjacency_children_other _ b L L (fun h => hbL h.symm),
        linkCaches_pres Node.children (fun n x => rfl) (fun n x => rfl) cur b L L]
  · rw [hcl L,
        getN_updN_pres Node.next _ b
          (fun n => { n with forwarder := mapInsert n.forwarder endId true })
          (fun n => rfl) L,
        linkDegrees_pres Node.next (fun n x => rfl) (fun n x => rfl) (fun n x => rfl) _ b L L,
        linkAdjacency_pres Node.next (fun n x => rfl) (fun n x => rfl) _ b L L,
        linkCaches_next_at cur b L hbL hLnext hprevNoL]
  · rw [hcl L,
        getN_updN_pres Node.outdegree _ b
          (fun n => { n with forwarder := mapInsert n.forwarder endId true })
          (fun n => rfl) L,
        linkDegrees_outdeg_other _ b L L (fun h => hbL h.symm),
        linkAdjacency_pres Node.outdegree (fun n x => rfl) (fun n x => rfl) _ b L L,
        linkCaches_pres Node.outdegree (fun n x => rfl) (fun n x => rfl) cur b L L]
  · rw [hcl L,
        getN_updN_pres Node.dependsOn _ b
          (fun n => { n with forwarder := mapInsert n.forwarder endId true })
          (fun n => rfl) L,
        linkDegrees_pres Node.dependsOn (fun n x => rfl) (fun n x => rfl) (fun n x => rfl)
          _ b L L,
        linkAdjacency_dependsOn_at _ b L hbL hL1,
        linkCaches_pres Node.dependsOn (fun n x => rfl) (fun n x => rfl) cur b L L]

/-! ## vpass lemmas (for C8) -/

theorem vpass_pres {α : Type} (P : St → α)
    (hP1 : ∀ (s : St) (p : Nat) (u : String),
      P (updN s p (fun n => { n with uniqueId := u })) = P s)
    (hP2 : ∀ (s : St) (x : Option Nat),
      P { s with dag := { s.dag with initialNode := x } } = P s) :
    ∀ (m : List (String × Nat)) (st : St) (c : Nat) (ends : List Nat),
      P (vpass st m c ends).1 = P st := by
  intro m
  induction m with
  | nil => intro st c ends; rfl
  | cons kp rest ih =>
    intro st c ends
    simp only [vpass]
    rw [ih]
    split
    · rw [hP2, hP1]
    · rw [hP1]

theorem vpass_getN_pres {α : Type} (g : Node → α)
    (hg : ∀ n u, g { n with uniqueId := u } = g n) :
    ∀ (m : List (String × Nat)) (st : St) (c : Nat) (ends : List Nat) (q : Nat),
      g (getN (vpass st m c ends).1 q) = g (getN st q) := by
  intro m st c ends q
  exact vpass_pres (fun s => g (getN s q))
    (fun s p u => getN_updN_pres g s p (fun n => { n with uniqueId := u }) (fun n => hg _ _) q)
    (fun s x => rfl) m st c ends

theorem getN_with_dag (s : St) (d : Dag) (q : Nat) : getN { s with dag := d } q = getN s q :=
  rfl

theorem vpass_counts_aux (stRef : St) :
    ∀ (m : List (String × Nat)) (st : St) (c : Nat) (ends : List Nat),
      (∀ q, (getN st q).indegree = (getN stRef q).indegree ∧
            (getN st q).outdegree = (getN stRef q).outdegree) →
      (vpass st m c ends).2.1
        = c + (m.filter (fun kp => (getN stRef kp.2).indegree == 0)).length ∧
      (vpass st m c ends).2.2
        = ends ++ (m.filter (fun kp => (getN stRef kp.2).outdegree == 0)).map Prod.snd := by
  intro m
  induction m with
  | nil => intro st c ends _; exact ⟨by simp [vpass], by simp [vpass]⟩
  | cons kp rest ih =>
    intro st c ends hagree
    simp only [vpass]
    have hagreeU : ∀ (u : String) (q : Nat),
        (getN (updN st kp.2 (fun n => { n with uniqueId := u })) q).indegree
          = (getN stRef q).indegree ∧
        (getN (updN st kp.2 (fun n => { n with uniqueId := u })) q).outdegree
          = (getN stRef q).outdegree := by
      intro u q
      constructor
      · rw [getN_updN_pres Node.indegree st kp.2 (fun n => { n with uniqueId := u })
            (fun n => rfl) q]
        exact (hagree q).1
      · rw [getN_updN_pres Node.outdegree st kp.2 (fun n => { n with uniqueId := u })
            (fun n => rfl) q]
        exact (hagree q).2
    by_cases hin : (getN st kp.2).indegree = 0
    · rw [if_pos hin]
      dsimp only
      have hnext : ∀ q,
          (getN { updN st kp.2 (fun n =>
              { n with uniqueId := st.dag.id ++ "_" ++ toString (getN st kp.2).index
                  ++ "_" ++ (getN st kp.2).id }) with
            dag := { (updN st kp.2 (fun n =>
              { n with uniqueId := st.dag.id ++ "_" ++ toString (getN st kp.2).index
                  ++ "_" ++ (getN st kp.2).id })).dag with initialNode := some kp.2 } } q).indegree
            = (getN stRef q).indegree ∧
          (getN { updN st kp.2 (fun n =>
              { n with uniqueId := st.dag.id ++ "_" ++ toString (getN st kp.2).index
                  ++ "_" ++ (getN st kp.2).id }) with
            dag := { (updN st kp.2 (fun n =>
              { n with uniqueId := st.dag.id ++ "_" ++ toString (getN st kp.2).index
                  ++ "_" ++ (getN st kp.2).id })).dag with initialNode := some kp.2 } } q).outdegree
            = (getN stRef q).outdegree := by
        intro q
        rw [getN_with_dag]
        exact hagreeU _ q
      have hinRef : ((getN stRef kp.2).indegree == 0) = true := by
        have := (hagree kp.2).1
        simp [← this, hin]
      rcases ih _ (c + 1) _ hnext with ⟨ih1, ih2⟩
      constructor
      · rw [ih1, List.filter_cons, if_pos hinRef, List.length_cons]
        omega
      · rw [ih2, List.filter_cons]
        by_cases hout : (getN st kp.2).outdegree = 0
        · have houtRef : ((getN stRef kp.2).outdegree == 0) = true := by
            have := (hagree kp.2).2
            simp [← this, hout]
          rw [if_pos hout, if_pos houtRef]
          simp
        · have houtRef : ¬ ((getN stRef kp.2).outdegree == 0) = true := by
            have := (hagree kp.2).2
            simp [← this, hout]
          rw [if_neg hout, if_neg houtRef]
    · rw [if_neg hin]
      dsimp only
      have hinRef : ¬ ((getN stRef kp.2).indegree == 0) = true := by
        have := (hagree kp.2).1
        simp [← this, hin]
      rcases ih _ c _ (hagreeU _) with ⟨ih1, ih2⟩
      constructor
      · rw [ih1, List.filter_cons, if_neg hinRef]
      · rw [ih2, List.filter_cons]
        by_cases hout : (getN st kp.2).outdegree = 0
        · have houtRef : ((getN stRef kp.2).outdegree == 0) = true := by
            have := (hagree kp.2).2
            simp [← this, hout]
          rw [if_pos hout, if_pos houtRef]
          simp
        · have houtRef : ¬ ((getN stRef kp.2).outdegree == 0) = true := by
            have := (hagree kp.2).2
            simp [← this, hout]
          rw [if_neg hout, if_neg houtRef]

theorem vpass_counts (st : St) (m : List (String × Nat)) (c : Nat) (ends : List Nat) :
    (vpass st m c ends).2.1
      = c + (m.filter (fun kp => (getN st kp.2).indegree == 0)).length ∧
    (vpass st m c ends).2.2
      = ends ++ (m.filter (fun kp => (getN st kp.2).outdegree == 0)).map Prod.snd :=
  vpass_counts_aux st m st c ends (fun _ => ⟨rfl, rfl⟩)

/-! ## Map and binding well-formedness lemmas (for C8) -/

theorem mapLookup_append_some {α : Type} (m1 m2 : List (String × α)) (k : String) (v : α)
    (h : mapLookup m1 k = some v) : mapLookup (m1 ++ m2) k = some v := by
  induction m1 with
  | nil => simp [mapLookup] at h
  | cons kv rest ih =>
    simp only [mapLookup, List.cons_append] at h ⊢
    by_cases hk : kv.1 = k
    · rw [if_pos hk] at h ⊢
      exact h
    · rw [if_neg hk] at h ⊢
      exact ih h

theorem mapLookup_append_none {α : Type} (m1 m2 : List (String × α)) (k : String)
    (h : mapLookup m1 k = none) : mapLookup (m1 ++ m2) k = mapLookup m2 k := by
  induction m1 with
  | nil => rfl
  | cons kv rest ih =>
    simp only [mapLookup, List.cons_append] at h ⊢
    by_cases hk : kv.1 = k
    · rw [if_pos hk] at h
      exact absurd h (by simp)
    · rw [if_neg hk] at h ⊢
      exact ih h

theorem mapLookup_eq_none_of_absent {α : Type} (m : List (String × α)) (k : String)
    (h : ∀ kv ∈ m, kv.1 ≠ k) : mapLookup m k = none := by
  induction m with
  | nil => rfl
  | cons kv rest ih =>
    simp only [mapLookup]
    rw [if_neg (h kv (List.mem_cons_self _ _))]
    exact ih (fun kv2 h2 => h kv2 (List.mem_cons_of_mem _ h2))

theorem mapLookup_of_mem_nodup {α : Type} (m : List (String × α)) (k : String) (v : α)
    (hmem : (k, v) ∈ m) (hnd : (m.map Prod.fst).Nodup) : mapLookup m k = some v := by
  induction m with
  | nil => cases hmem
  | cons kv rest ih =>
    simp only [mapLookup]
    rcases List.mem_cons.mp hmem with heq | hrest
    · rw [← heq]
      simp
    · have hnd' : (kv.1 :: rest.map Prod.fst).Nodup := by simpa using hnd
      have hnd2 := List.nodup_cons.mp hnd'
      have hk : kv.1 ≠ k := by
        intro hkk
        apply hnd2.1
        rw [hkk]
        exact List.mem_map.mpr ⟨(k, v), hrest, rfl⟩
      rw [if_neg hk]
      exact ih hrest hnd2.2

theorem mapInsert_absent {α : Type} (m : List (String × α)) (k : String) (v : α)
    (h : ∀ kv ∈ m, kv.1 ≠ k) : mapInsert m k v = m ++ [(k, v)] := by
  induction m with
  | nil => rfl
  | cons kv rest ih =>
    simp only [mapInsert, List.cons_append]
    rw [if_neg (h kv (List.mem_cons_self _ _))]
    rw [ih (fun kv2 h2 => h kv2 (List.mem_cons_of_mem _ h2))]

theorem eq_of_fst_eq_nodup {α : Type} :
    ∀ (m : List (String × α)), (m.map Prod.fst).Nodup →
      ∀ kv1 ∈ m, ∀ kv2 ∈ m, kv1.1 = kv2.1 → kv1 = kv2 := by
  intro m
  induction m with
  | nil => intro _ kv1 h1; cases h1
  | cons kv rest ih =>
    intro hnd kv1 h1 kv2 h2 hfst
    have hnd' : (kv.1 :: rest.map Prod.fst).Nodup := by simpa using hnd
    have hnd2 := List.nodup_cons.mp hnd'
    rcases List.mem_cons.mp h1 with he1 | hr1
    · rcases List.mem_cons.mp h2 with he2 | hr2
      · rw [he1, he2]
      · exfalso
        apply hnd2.1
        rw [show kv.1 = kv2.1 from by rw [← he1]; exact hfst]
        exact List.mem_map.mpr ⟨kv2, hr2, rfl⟩
    · rcases List.mem_cons.mp h2 with he2 | hr2
      · exfalso
        apply hnd2.1
        rw [show kv.1 = kv1.1 from by rw [← he2]; exact hfst.symm]
        exact List.mem_map.mpr ⟨kv1, hr1, rfl⟩
      · exact ih hnd2.2 kv1 hr1 kv2 hr2 hfst

theorem keys_ne_endId (st : St) (h5 : wfBindings st) (h7 : freshEndId st) :
    ∀ kv ∈ st.dag.nodes, kv.1 ≠ "end_" ++ st.dag.id := by
  intro kv hkv
  rcases h5.1 kv hkv with ⟨hlt, hid⟩
  rw [← hid]
  exact h7 kv.2 hlt

theorem mem_exitPtrs (st : St) (b : Nat) :
    b ∈ exitPtrs st ↔ ∃ k, (k, b) ∈ st.dag.nodes ∧ (getN st b).outdegree = 0 := by
  constructor
  · intro h
    rcases List.mem_map.mp h with ⟨kp, hkp, hsnd⟩
    rcases List.mem_filter.mp hkp with ⟨hmem, hpred⟩
    refine ⟨kp.1, ?_, ?_⟩
    · rw [show (kp.1, b) = kp from by rw [← hsnd]]
      exact hmem
    · rw [← hsnd]
      simpa using hpred
  · intro ⟨k, hmem, hdeg⟩
    exact List.mem_map.mpr ⟨(k, b), List.mem_filter.mpr ⟨hmem, by simpa using hdeg⟩, rfl⟩

theorem exitPtrs_nodup (st : St) (h5 : wfBindings st) : (exitPtrs st).Nodup := by
  have hpairs : st.dag.nodes.Nodup := List.Nodup.of_map Prod.fst h5.2
  have hfil : (st.dag.nodes.filter
      (fun kp => (getN st kp.2).outdegree == 0)).Nodup :=
    (List.filter_sublist _).nodup hpairs
  refine List.Nodup.map_on ?_ hfil
  intro kv1 h1 kv2 h2 hsnd
  have m1 : kv1 ∈ st.dag.nodes := (List.mem_filter.mp h1).1
  have m2 : kv2 ∈ st.dag.nodes := (List.mem_filter.mp h2).1
  have hfst : kv1.1 = kv2.1 := by
    rcases h5.1 kv1 m1 with ⟨-, hid1⟩
    rcases h5.1 kv2 m2 with ⟨-, hid2⟩
    rw [← hid1, ← hid2, hsnd]
  exact eq_of_fst_eq_nodup st.dag.nodes h5.2 kv1 m1 kv2 m2 hfst

/-- Reduction of `AddEdge` to its success tail when both lookups hit and both
checks pass. -/
theorem addEdge_success (cur : St) (k endId : String) (b L : Nat)
    (hF : mapLookup cur.dag.nodes k = some b)
    (hT : mapLookup cur.dag.nodes endId = some L)
    (hdup : (inSlice cur L (getN cur b).children
              || inSlice cur b (getN cur L).dependsOn) = false)
    (hcyc : (inSlice cur b (getN cur L).next
              || inSlice cur L (getN cur b).prev) = false) :
    addEdge cur k endId = (none, addEdgeLink cur b L endId) := by
  simp [addEdge, hF, hT, hdup, hcyc]

theorem inSlice_eq_false (st : St) (p : Nat) (l : List Nat)
    (h : ∀ q ∈ l, (getN st q).id ≠ (getN st p).id) : inSlice st p l = false := by
  simp only [inSlice, List.any_eq_false, decide_eq_true_eq]
  exact h

/-! ## The exit-merging loop preserves the invariant (for C8) -/

theorem mergeEnds_inv (st : St) (L : Nat) (endId : String)
    (h5 : wfBindings st) (h6 : ptrsBounded st) (h7 : freshEndId st)
    (hL : L = st.heap.length) (hEnd : endId = "end_" ++ st.dag.id) :
    ∀ (post pre : List Nat) (cur : St),
      pre ++ post = exitPtrs st →
      MergeInv st L endId pre cur →
      ∃ fin : St, mergeEnds endId cur post = (none, fin) ∧
        MergeInv st L endId (pre ++ post) fin := by
  intro post
  induction post with
  | nil =>
    intro pre cur _ inv
    exact ⟨cur, rfl, by simpa using inv⟩
  | cons b post' ih =>
    intro pre cur hsplit inv
    have hbEx : b ∈ exitPtrs st := by
      rw [← hsplit]
      exact List.mem_append_right _ (List.mem_cons_self _ _)
    rcases (mem_exitPtrs st b).mp hbEx with ⟨k, hkb, hdeg0⟩
    rcases h5.1 (k, b) hkb with ⟨hblt', hbid⟩
    have hblt : b < L := by rw [hL]; exact hblt'
    have hbL : b ≠ L := Nat.ne_of_lt hblt
    have hnd : (pre ++ b :: post').Nodup := by
      rw [hsplit]
      exact exitPtrs_nodup st h5
    have hbpre : b ∉ pre := by
      rcases List.nodup_append.mp hnd with ⟨-, -, hdisj⟩
      intro hmem
      exact hdisj hmem (List.mem_cons_self _ _)
    have hbidcur : (getN cur b).id = k := by
      rw [(inv.hold b hblt).1, hbid]
    have hlookF : mapLookup cur.dag.nodes k = some b := by
      rw [inv.hmap]
      exact mapLookup_append_some _ _ _ _ (mapLookup_of_mem_nodup _ _ _ hkb h5.2)
    have hlookT : mapLookup cur.dag.nodes endId = some L := by
      rw [inv.hmap,
          mapLookup_append_none _ _ _ (mapLookup_eq_none_of_absent _ _ (by
            rw [hEnd]
            exact keys_ne_endId st h5 h7))]
      simp [mapLookup]
    have hbch : (getN cur b).children = (getN st b).children :=
      (inv.hunproc b hblt hbpre).1
    have hbpr : (getN cur b).prev = (getN st b).prev := (inv.hold b hblt).2
    rcases h6 (k, b) hkb with ⟨hbchB, hbprB⟩
    have hidLcur : (getN cur L).id = endId := inv.hend.1
    have hdup : (inSlice cur L (getN cur b).children
        || inSlice cur b (getN cur L).dependsOn) = false := by
      rw [Bool.or_eq_false_iff]
      constructor
      · rw [hbch]
        refine inSlice_eq_false cur L _ ?_
        intro q hq
        have hqlt : q < L := by rw [hL]; exact hbchB q hq
        rw [(inv.hold q hqlt).1, hidLcur, hEnd]
        exact h7 q (by rw [← hL]; exact hqlt)
      · rw [inv.hend.2.2.2.2]
        refine inSlice_eq_false cur b _ ?_
        intro p hp
        have hpEx : p ∈ exitPtrs st := by
          rw [← hsplit]
          exact List.mem_append_left _ hp
        rcases (mem_exitPtrs st p).mp hpEx with ⟨kp, hkp, -⟩
        rcases h5.1 (kp, p) hkp with ⟨hplt', hpid⟩
        have hplt : p < L := by rw [hL]; exact hplt'
        rw [(inv.hold p hplt).1, hpid, hbidcur]
        intro hkk
        have : (kp, p) = (k, b) :=
          eq_of_fst_eq_nodup st.dag.nodes h5.2 (kp, p) hkp (k, b) hkb hkk
        have hpb : p = b := congrArg Prod.snd this
        rw [hpb] at hp
        exact hbpre hp
    have hcyc : (inSlice cur b (getN cur L).next
        || inSlice cur L (getN cur b).prev) = false := by
      rw [Bool.or_eq_false_iff]
      constructor
      · rw [inv.hend.2.2.1]
        rfl
      · rw [hbpr]
        refine inSlice_eq_false cur L _ ?_
        intro q hq
        have hqlt : q < L := by rw [hL]; exact hbprB q hq
        rw [(inv.hold q hqlt).1, hidLcur, hEnd]
        exact h7 q (by rw [← hL]; exact hqlt)
    have hred := addEdge_success cur k endId b L hlookF hlookT hdup hcyc
    have hstep : mergeEnds endId cur (b :: post')
        = mergeEnds endId (addForwarder (addEdgeLink cur b L endId) b endId false) post' := by
      simp only [mergeEnds]
      rw [hbidcur, hred]
    have hbcur : b < cur.heap.length := by
      rw [inv.hlen]
      exact Nat.lt_succ_of_lt hblt
    have hLcur : L < cur.heap.length := by
      rw [inv.hlen]
      exact Nat.lt_succ_self L
    have hprevNoL : L ∉ (getN cur b).prev := by
      rw [hbpr]
      intro hmem
      have := hbprB L hmem
      rw [← hL] at this
      exact Nat.lt_irrefl L this
    obtain ⟨snodes, slen, sother, sb, sL⟩ :=
      addEdgeLink_spec cur b L endId hbL hbcur hLcur inv.hend.2.2.1 hprevNoL
    have hlinkb : b < (addEdgeLink cur b L endId).heap.length := by
      rw [slen]
      exact hbcur
    have hAFother : ∀ q, q ≠ b →
        getN (addForwarder (addEdgeLink cur b L endId) b endId false) q
          = getN (addEdgeLink cur b L endId) q := by
      intro q hq
      rw [getN_addForwarder _ b endId false q, getN_updN_other _ _ _ _ hq]
    have hAFid : ∀ q, (getN (addForwarder (addEdgeLink cur b L endId) b endId false) q).id
        = (getN (addEdgeLink cur b L endId) q).id := by
      intro q
      rw [getN_addForwarder _ b endId false q]
      exact getN_updN_pres Node.id _ b
        (fun n => { n with forwarder := mapInsert n.forwarder endId false })
        (fun n => rfl) q
    have hAFprev : ∀ q,
        (getN (addForwarder (addEdgeLink cur b L endId) b endId false) q).prev
          = (getN (addEdgeLink cur b L endId) q).prev := by
      intro q
      rw [getN_addForwarder _ b endId false q]
      exact getN_updN_pres Node.prev _ b
        (fun n => { n with forwarder := mapInsert n.forwarder endId false })
        (fun n => rfl) q
    have hAFch : ∀ q,
        (getN (addForwarder (addEdgeLink cur b L endId) b endId false) q).children
          = (getN (addEdgeLink cur b L endId) q).children := by
      intro q
      rw [getN_addForwarder _ b endId false q]
      exact getN_updN_pres Node.children _ b
        (fun n => { n with forwarder := mapInsert n.forwarder endId false })
        (fun n => rfl) q
    have hAFout : ∀ q,
        (getN (addForwarder (addEdgeLink cur b L endId) b endId false) q).outdegree
          = (getN (addEdgeLink cur b L endId) q).outdegree := by
      intro q
      rw [getN_addForwarder _ b endId false q]
      exact getN_updN_pres Node.outdegree _ b
        (fun n => { n with forwarder := mapInsert n.forwarder endId false })
        (fun n => rfl) q
    have hAFnext : ∀ q,
        (getN (addForwarder (addEdgeLink cur b L endId) b endId false) q).next
          = (getN (addEdgeLink cur b L endId) q).next := by
      intro q
      rw [getN_addForwarder _ b endId false q]
      exact getN_updN_pres Node.next _ b
        (fun n => { n with forwarder := mapInsert n.forwarder endId false })
        (fun n => rfl) q
    have hAFdep : ∀ q,
        (getN (addForwarder (addEdgeLink cur b L endId) b endId false) q).dependsOn
          = (getN (addEdgeLink cur b L endId) q).dependsOn := by
      intro q
      rw [getN_addForwarder _ b endId false q]
      exact getN_updN_pres Node.dependsOn _ b
        (fun n => { n with forwarder := mapInsert n.forwarder endId false })
        (fun n => rfl) q
    have hAFfwdb :
        (getN (addForwarder (addEdgeLink cur b L endId) b endId false) b).forwarder
          = mapInsert (getN (addEdgeLink cur b L endId) b).forwarder endId false := by
      rw [getN_addForwarder _ b endId false b, getN_updN_self _ b _ hlinkb]
    have invNew : MergeInv st L endId (pre ++ [b])
        (addForwarder (addEdgeLink cur b L endId) b endId false) := by
      constructor
      · rw [addForwarder_len, slen, inv.hlen]
      · rw [addForwarder_nodes, snodes, inv.hmap]
      · intro p hplt
        refine ⟨?_, ?_⟩
        · rw [hAFid p]
          by_cases hpb : p = b
          · subst hpb
            rw [sb.1]
            exact (inv.hold p hplt).1
          · rw [(sother p hpb (Nat.ne_of_lt hplt)).1]
            exact (inv.hold p hplt).1
        · rw [hAFprev p]
          by_cases hpb : p = b
          · subst hpb
            rw [sb.2.1]
            exact (inv.hold p hplt).2
          · rw [(sother p hpb (Nat.ne_of_lt hplt)).2.1]
            exact (inv.hold p hplt).2
      · intro p hplt hpnot
        have hpb : p ≠ b := by
          intro hpb
          exact hpnot (by rw [hpb]; exact List.mem_append_right _ (List.mem_cons_self _ _))
        have hppre : p ∉ pre := fun hmem => hpnot (List.mem_append_left _ hmem)
        rcases sother p hpb (Nat.ne_of_lt hplt) with ⟨-, -, sch, sout, -⟩
        refine ⟨?_, ?_⟩
        · rw [hAFch p, sch]
          exact (inv.hunproc p hplt hppre).1
        · rw [hAFout p, sout]
          exact (inv.hunproc p hplt hppre).2
      · intro p hp
        rcases List.mem_append.mp hp with hppre | hpb
        · have hpb : p ≠ b := fun he => hbpre (he ▸ hppre)
          rcases inv.hproc p hppre with ⟨hplt, hdeg, hout1, hch, hfwd⟩
          rcases sother p hpb (Nat.ne_of_lt hplt) with ⟨-, -, sch, sout, sfwd⟩
          refine ⟨hplt, hdeg, ?_, ?_, ?_⟩
          · rw [hAFout p, sout]
            exact hout1
          · rw [hAFch p, sch]
            exact hch
          · rw [show (getN (addForwarder (addEdgeLink cur b L endId) b endId false)
                p).forwarder = (getN (addEdgeLink cur b L endId) p).forwarder
              from congrArg Node.forwarder (hAFother p hpb), sfwd]
            exact hfwd
        · have hpb : p = b := by simpa using hpb
          subst hpb
          refine ⟨hblt, hdeg0, ?_, ?_, ?_⟩
          · rw [hAFout p, sb.2.2.2, (inv.hunproc p hblt hbpre).2, hdeg0]
            omega
          · rw [hAFch p, sb.2.2.1, hbch]
          · rw [hAFfwdb]
            exact mapLookup_mapInsert_self _ _ _
      · have hLb : L ≠ b := fun h => hbL h.symm
        rcases sL with ⟨sid, sch, snext, sout, sdep⟩
        refine ⟨?_, ?_, ?_, ?_, ?_⟩
        · rw [hAFid L, sid]
          exact hidLcur
        · rw [hAFch L, sch]
          exact inv.hend.2.1
        · rw [hAFnext L]
          exact snext
        · rw [hAFout L, sout]
          exact inv.hend.2.2.2.1
        · rw [hAFdep L, sdep, inv.hend.2.2.2.2]
    have hsplit2 : (pre ++ [b]) ++ post' = exitPtrs st := by
      rw [List.append_assoc]
      simpa using hsplit
    rcases ih (pre ++ [b]) _ hsplit2 invNew with ⟨fin, hfin, invFin⟩
    refine ⟨fin, by rw [hstep, hfin], ?_⟩
    rw [List.append_assoc] at invFin
    simpa using invFin

/-! ## addVertex and vpass projection lemmas (for C8) -/

theorem addVertex_fst (s : St) (i : String) (o : List Operation) :
    (addVertex s i o).1 = s.heap.length := rfl

theorem addVertex_len (s : St) (i : String) (o : List Operation) :
    (addVertex s i o).2.heap.length = s.heap.length + 1 := by
  simp [addVertex]

theorem addVertex_nodes (s : St) (i : String) (o : List Operation) :
    (addVertex s i o).2.dag.nodes = mapInsert s.dag.nodes i s.heap.length := rfl

theorem getN_addVertex_lt (s : St) (i : String) (o : List Operation) (p : Nat)
    (h : p < s.heap.length) : getN (addVertex s i o).2 p = getN s p := by
  simp [addVertex, getN, List.getElem?_append_left h]

theorem getN_addVertex_self (s : St) (i : String) (o : List Operation) :
    getN (addVertex s i o).2 s.heap.length
      = { defNode with id := i, operations := o, index := s.dag.nodeIndex + 1 } := by
  simp [addVertex, getN, get?_concat_len]

theorem vpass_nodes (m : List (String × Nat)) (s : St) (c : Nat) (ends : List Nat) :
    (vpass s m c ends).1.dag.nodes = s.dag.nodes :=
  vpass_pres (fun s => s.dag.nodes)
    (fun s p u => congrArg Dag.nodes (updN_dag s p _)) (fun s x => rfl) m s c ends

theorem vpass_dagid (m : List (String × Nat)) (s : St) (c : Nat) (ends : List Nat) :
    (vpass s m c ends).1.dag.id = s.dag.id :=
  vpass_pres (fun s => s.dag.id)
    (fun s p u => congrArg Dag.id (updN_dag s p _)) (fun s x => rfl) m s c ends

theorem vpass_len (m : List (String × Nat)) (s : St) (c : Nat) (ends : List Nat) :
    (vpass s m c ends).1.heap.length = s.heap.length :=
  vpass_pres (fun s => s.heap.length)
    (fun s p u => updN_len s p _) (fun s x => rfl) m s c ends

theorem vpass_nodeIndex (m : List (String × Nat)) (s : St) (c : Nat) (ends : List Nat) :
    (vpass s m c ends).1.dag.nodeIndex = s.dag.nodeIndex :=
  vpass_pres (fun s => s.dag.nodeIndex)
    (fun s p u => congrArg Dag.nodeIndex (updN_dag s p _)) (fun s x => rfl) m s c ends

set_option maxHeartbeats 1000000 in
/-- C8 (amended): on a graph that Validate actually normalizes — not yet
validated, non-empty, at most one indegree-0 node, well-formed bindings,
in-range adjacency pointers, and no node already carrying the synthetic id —
with more than one outdegree-0 node, Validate succeeds and synthesizes one
exit node with id `"end_<dagId>"`: the id is bound to a fresh node, recorded
as the graph's end node; every original exit gains exactly one outgoing edge
to it whose forwarder is nil (`some false` in the model); and afterwards the
synthetic node is the only outdegree-0 node of the graph. -/
theorem validate_merges_multiple_exits (st : St)
    (h1 : st.dag.validated = false)
    (h2 : st.dag.nodes ≠ [])
    (h3 : initialCount st ≤ 1)
    (h4 : 1 < (exitPtrs st).length)
    (h5 : wfBindings st) (h6 : ptrsBounded st) (h7 : freshEndId st) :
    ∃ st' : St,
      validate st = .ret none st' ∧
      st'.dag.validated = true ∧
      mapLookup st'.dag.nodes ("end_" ++ st.dag.id) = some st.heap.length ∧
      (getN st' st.heap.length).id = "end_" ++ st.dag.id ∧
      st'.dag.endNode = some st.heap.length ∧
      (∀ b ∈ exitPtrs st,
        st.heap.length ∈ (getN st' b).children ∧
        (getN st' b).outdegree = 1 ∧
        mapLookup (getN st' b).forwarder ("end_" ++ st.dag.id) = some false) ∧
      exitPtrs st' = [st.heap.length] := by
  have habsent : ∀ kv ∈ st.dag.nodes, kv.1 ≠ "end_" ++ st.dag.id := keys_ne_endId st h5 h7
  have hvpn := vpass_nodes st.dag.nodes st 0 []
  have hvpi := vpass_dagid st.dag.nodes st 0 []
  have hvpl := vpass_len st.dag.nodes st 0 []
  have hcounts := vpass_counts st st.dag.nodes 0 []
  have hinit : ¬ ((vpass st st.dag.nodes 0 []).2.1 > 1) := by
    rw [hcounts.1, Nat.zero_add]
    exact Nat.not_lt.mpr h3
  have hends : (vpass st st.dag.nodes 0 []).2.2 = exitPtrs st := by
    rw [hcounts.2]
    rfl
  have hendslen : (vpass st st.dag.nodes 0 []).2.2.length > 1 := by
    rw [hends]
    exact h4
  -- the state after the synthetic AddVertex, and the base invariant
  have hstep2nodes : (addVertex (vpass st st.dag.nodes 0 []).1 ("end_" ++ st.dag.id)
      [Operation.blank]).2.dag.nodes = st.dag.nodes ++ [("end_" ++ st.dag.id, st.heap.length)] := by
    rw [addVertex_nodes, hvpn, hvpl, mapInsert_absent _ _ _ habsent]
  have invBase : MergeInv st st.heap.length ("end_" ++ st.dag.id) []
      (addVertex (vpass st st.dag.nodes 0 []).1 ("end_" ++ st.dag.id) [Operation.blank]).2 := by
    constructor
    · rw [addVertex_len, hvpl]
    · exact hstep2nodes
    · intro p hplt
      rw [getN_addVertex_lt _ _ _ p (by rw [hvpl]; exact hplt)]
      constructor
      · exact vpass_getN_pres Node.id (fun n u => rfl) st.dag.nodes st 0 [] p
      · exact vpass_getN_pres Node.prev (fun n u => rfl) st.dag.nodes st 0 [] p
    · intro p hplt _
      rw [getN_addVertex_lt _ _ _ p (by rw [hvpl]; exact hplt)]
      constructor
      · exact vpass_getN_pres Node.children (fun n u => rfl) st.dag.nodes st 0 [] p
      · exact vpass_getN_pres Node.outdegree (fun n u => rfl) st.dag.nodes st 0 [] p
    · intro p hp
      exact absurd hp (List.not_mem_nil p)
    · rw [show st.heap.length = (vpass st st.dag.nodes 0 []).1.heap.length from hvpl.symm,
          getN_addVertex_self]
      exact ⟨rfl, rfl, rfl, rfl, rfl⟩
  rcases mergeEnds_inv st st.heap.length ("end_" ++ st.dag.id) h5 h6 h7 rfl rfl
      (exitPtrs st) [] _ (by simp) invBase with ⟨fin, hfin, invFin⟩
  have invFin' : MergeInv st st.heap.length ("end_" ++ st.dag.id) (exitPtrs st) fin := by
    simpa using invFin
  -- reduce validate st
  have hval : validate st = .ret none
      { { fin with dag := { fin.dag with endNode := some st.heap.length } } with
        dag := { { fin with dag :=
          { fin.dag with endNode := some st.heap.length } }.dag with validated := true } } := by
    simp only [validate]
    rw [if_neg (by simp [h1]), if_neg h2, if_neg hinit, if_pos hendslen]
    rw [show ("end_" ++ (vpass st st.dag.nodes 0 []).1.dag.id) = "end_" ++ st.dag.id
        from by rw [hvpi]]
    rw [show (vpass st st.dag.nodes 0 []).2.2 = exitPtrs st from hends]
    rw [hfin]
    rw [show (addVertex (vpass st st.dag.nodes 0 []).1 ("end_" ++ st.dag.id)
        [Operation.blank]).1 = st.heap.length from by rw [addVertex_fst, hvpl]]
  refine ⟨_, hval, rfl, ?_, ?_, ?_, ?_, ?_⟩
  · show mapLookup fin.dag.nodes ("end_" ++ st.dag.id) = some st.heap.length
    rw [invFin'.hmap]
    rw [mapLookup_append_none _ _ _ (mapLookup_eq_none_of_absent _ _ habsent)]
    simp [mapLookup]
  · show (getN fin st.heap.length).id = "end_" ++ st.dag.id
    exact invFin'.hend.1
  · rfl
  · intro b hb
    have hgetb : ∀ q, getN ({ { fin with dag :=
        { fin.dag with endNode := some st.heap.length } } with
        dag := { { fin with dag :=
          { fin.dag with endNode := some st.heap.length } }.dag with
          validated := true } } : St) q = getN fin q := fun q => rfl
    rcases invFin'.hproc b hb with ⟨hblt, hdeg, hout1, hch, hfwd⟩
    refine ⟨?_, ?_, ?_⟩
    · rw [hgetb b, hch]
      exact List.mem_append_right _ (List.mem_cons_self _ _)
    · rw [hgetb b]
      exact hout1
    · rw [hgetb b]
      exact hfwd
  · show (fin.dag.nodes.filter (fun kp => (getN fin kp.2).outdegree == 0)).map Prod.snd
      = [st.heap.length]
    rw [invFin'.hmap, List.filter_append]
    have hold : st.dag.nodes.filter (fun kp => (getN fin kp.2).outdegree == 0) = [] := by
      rw [List.filter_eq_nil_iff]
      intro kp hkp
      rcases h5.1 kp hkp with ⟨hklt, hkid⟩
      by_cases hkex : kp.2 ∈ exitPtrs st
      · rcases invFin'.hproc kp.2 hkex with ⟨-, -, hout1, -, -⟩
        simp [hout1]
      · have : (getN fin kp.2).outdegree = (getN st kp.2).outdegree :=
          (invFin'.hunproc kp.2 hklt hkex).2
        rw [this]
        intro hc
        apply hkex
        refine (mem_exitPtrs st kp.2).mpr ⟨kp.1, ?_, by simpa using hc⟩
        exact (show (kp.1, kp.2) = kp from rfl) ▸ hkp
    rw [hold]
    have hnew : (getN fin st.heap.length).outdegree = 0 := invFin'.hend.2.2.2.1
    simp [hnew]

/-- C8 (counterexample to the claim as stated): the graph a→b, validated and
then extended with an isolated vertex c, has two outdegree-0 nodes at
validation time; yet calling Validate again returns nil with the state
unchanged — no synthetic exit node with id `"end_<dagId>"` is created and
both exits keep outdegree 0, because the `dag.validated` guard (dag.go:194)
returns before the merge loop runs.  The claim's universal quantification
over graphs therefore fails on already-validated graphs. -/
theorem validate_no_merge_when_already_validated :
    1 < (exitPtrs exABVplusC).length ∧
    validate exABVplusC = .ret none exABVplusC ∧
    mapLookup exABVplusC.dag.nodes ("end_" ++ exABVplusC.dag.id) = none := by
  decide

/-- Witness for the amended C8 theorem: the graph {a→b, a→c} satisfies every
hypothesis, and Validate merges its two exits into a synthetic end node. -/
theorem validate_merges_multiple_exits_witness :
    ∃ st' : St,
      validate exABC = .ret none st' ∧
      st'.dag.validated = true ∧
      mapLookup st'.dag.nodes ("end_" ++ exABC.dag.id) = some exABC.heap.length ∧
      (getN st' exABC.heap.length).id = "end_" ++ exABC.dag.id ∧
      st'.dag.endNode = some exABC.heap.length ∧
      (∀ b ∈ exitPtrs exABC,
        exABC.heap.length ∈ (getN st' b).children ∧
        (getN st' b).outdegree = 1 ∧
        mapLookup (getN st' b).forwarder ("end_" ++ exABC.dag.id) = some false) ∧
      exitPtrs st' = [exABC.heap.length] :=
  validate_merges_multiple_exits exABC (by decide) (by decide) (by decide)
    (by decide) (by unfold wfBindings; decide) (by unfold ptrsBounded; decide)
    (by unfold freshEndId; decide)

end GopkgFlow
